import Mathlib

/-!
Verification of the browsile HTTP file server (`fs.go`) against its
natural-language specification.

The Go code is shallowly embedded: header values and paths are `List Char`
(Go strings are byte strings; all relevant data here is ASCII), `int64`
values are `Int` with the explicit 64-bit bounds checked exactly where the
Go code's `strconv.ParseInt` checks them, `time.Time` is a pair of an
epoch-second count and a nanosecond count, and fallible operations return
`Option`/`Except`.  Functions keep the names of the Go functions they embed.
Loops that consume a string are embedded with a fuel argument equal to
`length + 1`; every iteration of the corresponding Go loop consumes at least
one character, so the fuel never runs out on the inputs the code can see.
-/

namespace Browsile

/-- Header values, paths and ETags: Go strings as lists of characters. -/
abbrev Chars := List Char

/-- net/textproto `isASCIISpace`: the characters trimmed by `TrimString`. -/
def isASCIISpace (c : Char) : Bool :=
  c = ' ' || c = '\t' || c = '\n' || c = '\r'

/-- net/textproto `TrimString`: strip leading and trailing ASCII space. -/
def trimString (s : Chars) : Chars :=
  ((s.dropWhile isASCIISpace).reverse.dropWhile isASCIISpace).reverse

/-- Character values allowed inside an ETag (fs.go `scanETag`, the `case`
of allowed characters: `0x21`, `0x23..0x7E`, `>= 0x80`). -/
def etagCharOK (c : Char) : Bool :=
  c.toNat = 0x21 || (0x23 ≤ c.toNat && c.toNat ≤ 0x7E) || 0x80 ≤ c.toNat

/-- The scanning loop of fs.go `scanETag`, walking the characters after the
opening quote.  Returns the characters up to and including the closing
quote, and the remainder, or `none` on a disallowed character or a missing
closing quote. -/
def scanETagLoop (acc : Chars) : Chars → Option (Chars × Chars)
  | [] => none
  | c :: rest =>
    if c = '"' then some (acc.reverse ++ [c], rest)
    else if etagCharOK c then scanETagLoop (c :: acc) rest
    else none

/-- fs.go `scanETag`: if a syntactically valid ETag is present at `s`,
return the ETag (including any `W/` prefix) and the remaining text;
otherwise `([], [])`. -/
def scanETag (s : Chars) : Chars × Chars :=
  let s := trimString s
  let start := if s.take 2 = ['W', '/'] then 2 else 0
  if (s.drop start).length < 2 || s.get? start ≠ some '"' then ([], [])
  else
    match scanETagLoop [] (s.drop (start + 1)) with
    | some (body, remain) => (s.take (start + 1) ++ body, remain)
    | none => ([], [])

/-- fs.go `etagStrongMatch`: strong comparison, `a == b && a != "" && a[0] == '"'`. -/
def etagStrongMatch (a b : Chars) : Bool :=
  a = b && a ≠ [] && a.head? = some '"'

/-- strings.TrimPrefix of the weak marker `W/`, as used by `etagWeakMatch`. -/
def trimWeakMarker (a : Chars) : Chars :=
  if a.take 2 = ['W', '/'] then a.drop 2 else a

/-- fs.go `etagWeakMatch`: weak comparison after stripping `W/` from both sides. -/
def etagWeakMatch (a b : Chars) : Bool :=
  trimWeakMarker a = trimWeakMarker b

/-- fs.go `condResult`: the result of one precondition check. -/
inductive condResult
  | condNone
  | condTrue
  | condFalse
deriving DecidableEq

/-- The scanning loop of fs.go `checkIfMatch`.  The fuel is length + 1;
each Go iteration consumes at least one character.  (Running out of fuel
yields `condFalse`, the value of the loop's `break` paths.) -/
def ifMatchLoop (etag : Chars) : Nat → Chars → condResult
  | 0, _ => .condFalse
  | fuel + 1, im0 =>
    let im := trimString im0
    if im = [] then .condFalse
    else if im.head? = some ',' then ifMatchLoop etag fuel (im.drop 1)
    else if im.head? = some '*' then .condTrue
    else
      let (e, remain) := scanETag im
      if e = [] then .condFalse
      else if etagStrongMatch e etag then .condTrue
      else ifMatchLoop etag fuel remain

/-- fs.go `checkIfMatch`: `etag` is the response `Etag` header, `im` the
request's `If-Match` header (empty = absent). -/
def checkIfMatch (im etag : Chars) : condResult :=
  if im = [] then .condNone
  else ifMatchLoop etag (im.length + 1) im

/-- The scanning loop of fs.go `checkIfNoneMatch` (fuel as in `ifMatchLoop`;
running out yields `condTrue`, the value of the loop's `break` paths). -/
def ifNoneMatchLoop (etag : Chars) : Nat → Chars → condResult
  | 0, _ => .condTrue
  | fuel + 1, buf0 =>
    let buf := trimString buf0
    if buf = [] then .condTrue
    else if buf.head? = some ',' then ifNoneMatchLoop etag fuel (buf.drop 1)
    else if buf.head? = some '*' then .condFalse
    else
      let (e, remain) := scanETag buf
      if e = [] then .condTrue
      else if etagWeakMatch e etag then .condFalse
      else ifNoneMatchLoop etag fuel remain

/-- fs.go `checkIfNoneMatch`. -/
def checkIfNoneMatch (inm etag : Chars) : condResult :=
  if inm = [] then .condNone
  else ifNoneMatchLoop etag (inm.length + 1) inm

/-- Go `time.Time`, reduced to what fs.go consumes: seconds since the Unix
epoch (`sec`, may be negative) and nanoseconds within the second
(`nsec`, `0 ≤ nsec < 10^9` on every time Go produces). -/
structure GoTime where
  sec : Int
  nsec : Int
deriving DecidableEq

/-- The epoch-second count of Go's zero `time.Time` (January 1, year 1 UTC). -/
def zeroTimeSec : Int := -62135596800

/-- Go `Time.IsZero`. -/
def GoTime.isZero (t : GoTime) : Bool :=
  t.sec = zeroTimeSec && t.nsec = 0

/-- fs.go `unixEpochTime = time.Unix(0, 0)`. -/
def unixEpochTime : GoTime := ⟨0, 0⟩

/-- Go `Time.Equal` (instant comparison). -/
def GoTime.equal (t u : GoTime) : Bool :=
  t.sec = u.sec && t.nsec = u.nsec

/-- fs.go `isZeroTime`: obviously unspecified (zero time or Unix epoch). -/
def isZeroTime (t : GoTime) : Bool :=
  t.isZero || t.equal unixEpochTime

/-- Go `Time.Truncate(time.Second)`: the zero time lies on a whole second,
so truncation drops the nanoseconds. -/
def GoTime.truncateSecond (t : GoTime) : GoTime := ⟨t.sec, 0⟩

/-- Go `Time.Compare`: -1, 0, or 1. -/
def GoTime.compare (t u : GoTime) : Int :=
  if t.sec < u.sec then -1
  else if u.sec < t.sec then 1
  else if t.nsec < u.nsec then -1
  else if u.nsec < t.nsec then 1
  else 0

/-- Go `Time.Unix`: epoch seconds. -/
def GoTime.unix (t : GoTime) : Int := t.sec

/-- A request header that carries an HTTP date, as seen after
`http.ParseTime` (library code, modelled at its interface): the header can
be absent, present but unparseable, or parsed to a time. -/
inductive HeaderTime
  | absent
  | malformed
  | parsed (t : GoTime)
deriving DecidableEq

/-- fs.go `checkIfUnmodifiedSince`. -/
def checkIfUnmodifiedSince (ius : HeaderTime) (modtime : GoTime) : condResult :=
  if ius = .absent || isZeroTime modtime then .condNone
  else
    match ius with
    | .parsed t =>
      if GoTime.compare modtime.truncateSecond t ≤ 0 then .condTrue else .condFalse
    | _ => .condNone

/-- fs.go `checkIfModifiedSince`. -/
def checkIfModifiedSince (method : String) (ims : HeaderTime) (modtime : GoTime) :
    condResult :=
  if method ≠ "GET" && method ≠ "HEAD" then .condNone
  else if ims = .absent || isZeroTime modtime then .condNone
  else
    match ims with
    | .parsed t =>
      if GoTime.compare modtime.truncateSecond t ≤ 0 then .condFalse else .condTrue
    | _ => .condNone

/-- fs.go `checkIfRange`.  `ir` is the raw `If-Range` value (empty =
absent); `irTime` is the result of `http.ParseTime` on that same value,
consulted only when the value does not scan as an ETag. -/
def checkIfRange (method : String) (ir : Chars) (irTime : HeaderTime)
    (etag : Chars) (modtime : GoTime) : condResult :=
  if method ≠ "GET" && method ≠ "HEAD" then .condNone
  else if ir = [] then .condNone
  else
    let e := (scanETag ir).1
    if e ≠ [] then
      if etagStrongMatch e etag then .condTrue else .condFalse
    else if modtime.isZero then .condFalse
    else
      match irTime with
      | .parsed t => if t.unix = modtime.unix then .condTrue else .condFalse
      | _ => .condFalse

/-- fs.go `setLastModified`: the `Last-Modified` header that gets set, if
any (the RFC 1123 rendering is abstracted to the time itself). -/
def setLastModified (modtime : GoTime) : Option GoTime :=
  if isZeroTime modtime then none else some modtime

/-- The conditional-request headers of a request, as fs.go reads them.
String-valued headers are raw characters with empty = absent; date headers
are modelled after parsing (see `HeaderTime`).  `ifRangeTime` is the
parsed-as-date view of the same raw `ifRange` value. -/
structure Request where
  method : String
  ifMatch : Chars
  ifNoneMatch : Chars
  ifUnmodifiedSince : HeaderTime
  ifModifiedSince : HeaderTime
  ifRange : Chars
  ifRangeTime : HeaderTime
  rangeHeader : Chars
deriving DecidableEq

/-- Outcome of fs.go `checkPreconditions`: either a response was written
(`done` with its status code) or processing continues with the given
effective `Range` header. -/
inductive PreconditionResult
  | done (status : Nat)
  | proceed (rangeHeader : Chars)
deriving DecidableEq

def statusNotModified : Nat := 304
def statusPreconditionFailed : Nat := 412

/-- The tail of fs.go `checkPreconditions`: the effective Range header,
discarded when `checkIfRange` fails. -/
def rangeForRequest (r : Request) (etag : Chars) (modtime : GoTime) : Chars :=
  if r.rangeHeader ≠ [] &&
      checkIfRange r.method r.ifRange r.ifRangeTime etag modtime = .condFalse then []
  else r.rangeHeader

/-- The value of the local variable `ch` in fs.go `checkPreconditions`
after its first two statements: the `If-Match` result, falling back to
`If-Unmodified-Since` when `If-Match` was indeterminate. -/
def imIusCheck (r : Request) (etag : Chars) (modtime : GoTime) : condResult :=
  if checkIfMatch r.ifMatch etag = .condNone then
    checkIfUnmodifiedSince r.ifUnmodifiedSince modtime
  else checkIfMatch r.ifMatch etag

/-- fs.go `checkPreconditions`, following RFC 7232 section 6. -/
def checkPreconditions (r : Request) (etag : Chars) (modtime : GoTime) :
    PreconditionResult :=
  if imIusCheck r etag modtime = .condFalse then .done statusPreconditionFailed
  else
    match checkIfNoneMatch r.ifNoneMatch etag with
    | .condFalse =>
      if r.method = "GET" || r.method = "HEAD" then .done statusNotModified
      else .done statusPreconditionFailed
    | .condNone =>
      if checkIfModifiedSince r.method r.ifModifiedSince modtime = .condFalse then
        .done statusNotModified
      else .proceed (rangeForRequest r etag modtime)
    | .condTrue => .proceed (rangeForRequest r etag modtime)

/-- fs.go `httpRange`: a byte range to be sent to the client. -/
structure httpRange where
  start : Int
  length : Int
deriving DecidableEq

/-- The value computed inside strconv.ParseInt for a digit string. -/
def digitsVal (ds : Chars) : Nat :=
  ds.foldl (fun a c => a * 10 + (c.toNat - '0'.toNat)) 0

/-- A non-empty string of decimal digits. -/
def allDigits (ds : Chars) : Bool :=
  ds ≠ [] && ds.all (fun c => '0' ≤ c && c ≤ '9')

def int64Max : Int := 9223372036854775807
def int64Min : Int := -9223372036854775808

/-- Digits-and-range part of `strconv.ParseInt(s, 10, 64)`: errors unless
the remainder is a non-empty digit string whose (signed) value fits int64.
The value is computed unbounded and bound-checked at the end, which agrees
with Go's running cutoff check. -/
def goParseIntDigits (neg : Bool) (ds : Chars) : Option Int :=
  if allDigits ds then
    let v : Int := if neg then -(digitsVal ds : Int) else (digitsVal ds : Int)
    if int64Min ≤ v && v ≤ int64Max then some v else none
  else none

/-- `strconv.ParseInt(s, 10, 64)` (library code, modelled at its interface):
optional sign, then digits, 64-bit bound check; `none` is Go's non-nil error. -/
def goParseInt (s : Chars) : Option Int :=
  if s.head? = some '+' then goParseIntDigits false (s.drop 1)
  else if s.head? = some '-' then goParseIntDigits true (s.drop 1)
  else goParseIntDigits false s

/-- strings.Cut at the first `'-'`: `some (before, after)` when a dash is
present, `none` otherwise. -/
def cutDash : Chars → Option (Chars × Chars)
  | [] => none
  | c :: rest =>
    if c = '-' then some ([], rest)
    else
      match cutDash rest with
      | some (a, b) => some (c :: a, b)
      | none => none

/-- Accumulator for strings.Split on `','`. -/
def splitCommaAux (cur : Chars) : Chars → List Chars
  | [] => [cur.reverse]
  | c :: rest =>
    if c = ',' then cur.reverse :: splitCommaAux [] rest
    else splitCommaAux (c :: cur) rest

/-- strings.Split on `','`. -/
def splitComma (s : Chars) : List Chars := splitCommaAux [] s

/-- The two failure modes of fs.go `parseRange`: `invalid` is the
`"invalid range"` error (malformed syntax), `noOverlap` is `errNoOverlap`. -/
inductive RangeErr
  | invalid
  | noOverlap
deriving DecidableEq

instance {ε α : Type} [DecidableEq ε] [DecidableEq α] : DecidableEq (Except ε α) := fun a b =>
  match a, b with
  | .error x, .error y =>
    if h : x = y then .isTrue (congrArg Except.error h)
    else .isFalse (fun hc => h (Except.error.inj hc))
  | .ok x, .ok y =>
    if h : x = y then .isTrue (congrArg Except.ok h)
    else .isFalse (fun hc => h (Except.ok.inj hc))
  | .error _, .ok _ => .isFalse (fun hc => Except.noConfusion hc)
  | .ok _, .error _ => .isFalse (fun hc => Except.noConfusion hc)

/-- The spec-processing loop of fs.go `parseRange`: walks the
comma-separated byte-range specs carrying the `noOverlap` flag and the
ranges accumulated so far (in reverse). -/
def parseRangeSpecs (size : Int) : List Chars → Bool → List httpRange →
    Except RangeErr (List httpRange)
  | [], noOv, acc =>
    if noOv && acc = [] then .error .noOverlap else .ok acc.reverse
  | ra0 :: rest, noOv, acc =>
    if trimString ra0 = [] then parseRangeSpecs size rest noOv acc
    else
      match cutDash (trimString ra0) with
      | none => .error .invalid
      | some (s0, e0) =>
        if trimString s0 = [] then
          -- <suffix-length>: a non-negative integer, clamped to size
          if trimString e0 = [] || (trimString e0).head? = some '-' then
            .error .invalid
          else
            match goParseInt (trimString e0) with
            | none => .error .invalid
            | some i =>
              if i < 0 then .error .invalid
              else
                parseRangeSpecs size rest noOv
                  (⟨size - (if size < i then size else i),
                    if size < i then size else i⟩ :: acc)
        else
          match goParseInt (trimString s0) with
          | none => .error .invalid
          | some i =>
            if i < 0 then .error .invalid
            else if size ≤ i then
              -- the range begins after the content: no overlap, not fatal
              parseRangeSpecs size rest true acc
            else if trimString e0 = [] then
              parseRangeSpecs size rest noOv (⟨i, size - i⟩ :: acc)
            else
              match goParseInt (trimString e0) with
              | none => .error .invalid
              | some j =>
                if j < i then .error .invalid
                else
                  parseRangeSpecs size rest noOv
                    (⟨i, (if size ≤ j then size - 1 else j) - i + 1⟩ :: acc)

/-- fs.go `parseRange`: parse a `Range` header against a resource size. -/
def parseRange (s : Chars) (size : Int) : Except RangeErr (List httpRange) :=
  if s = [] then .ok []
  else if ¬ ("bytes=".toList.isPrefixOf s) then .error .invalid
  else parseRangeSpecs size (splitComma (s.drop 6)) false []

/-- fs.go `sumRangesSize`. -/
def sumRangesSize (ranges : List httpRange) : Int :=
  ranges.foldl (fun a r => a + r.length) 0

/-- How fs.go `serveContent` answers a `Range` header (its lines from the
`parseRange` call to the `switch` over the range count):
`respond status hint` is an error response, where `hint = some size` means
the `Content-Range: bytes */<size>` header was set first; `single`/`multi`
are 206 responses; `full` is the plain 200 path. -/
inductive RangeOutcome
  | respond (status : Nat) (contentRangeHint : Option Int)
  | single (r : httpRange)
  | multi (rs : List httpRange)
  | full
deriving DecidableEq

def statusRequestedRangeNotSatisfiable : Nat := 416

/-- The anti-abuse clamp in fs.go `serveContent`: if the ranges sum to more
than the size, drop them all. -/
def rangesAfterSumCheck (size : Int) (ranges : List httpRange) : List httpRange :=
  if size < sumRangesSize ranges then [] else ranges

/-- The range-handling decision of fs.go `serveContent`.  On `errNoOverlap`
with `size = 0` the code sets `ranges = nil` and falls through to the
`switch`, which with zero ranges serves the full body. -/
def rangeDecision (rangeReq : Chars) (size : Int) : RangeOutcome :=
  match parseRange rangeReq size with
  | .error .noOverlap =>
    if size = 0 then .full
    else .respond statusRequestedRangeNotSatisfiable (some size)
  | .error .invalid => .respond statusRequestedRangeNotSatisfiable none
  | .ok ranges =>
    match rangesAfterSumCheck size ranges with
    | [] => .full
    | [r] => .single r
    | rs => .multi rs

def crlf : Chars := ['\r', '\n']

/-- fs.go `httpRange.contentRange`: `fmt.Sprintf("bytes %d-%d/%d", ...)`. -/
def contentRange (r : httpRange) (size : Int) : Chars :=
  "bytes ".toList ++ (toString r.start).toList ++ "-".toList ++
    (toString (r.start + r.length - 1)).toList ++ "/".toList ++ (toString size).toList

/-- The bytes mime/multipart `Writer.CreatePart` emits for one part header
carrying the `httpRange.mimeHeader` fields (library code, modelled at its
interface): the boundary line (preceded by CRLF for every part after the
first), then the header fields in sorted key order (`Content-Range` sorts
before `Content-Type`), then a blank line. -/
def createPartBytes (first : Bool) (boundary ctype : Chars) (size : Int)
    (r : httpRange) : Chars :=
  (if first then "--".toList ++ boundary ++ crlf
   else crlf ++ "--".toList ++ boundary ++ crlf) ++
  "Content-Range: ".toList ++ contentRange r size ++ crlf ++
  "Content-Type: ".toList ++ ctype ++ crlf ++
  crlf

/-- The bytes mime/multipart `Writer.Close` emits: the terminating boundary. -/
def closeBytes (boundary : Chars) : Chars :=
  crlf ++ "--".toList ++ boundary ++ "--".toList ++ crlf

/-- The `ra.length` content bytes `io.CopyN(part, content, ra.length)`
copies after seeking to `ra.start`; the resource's bytes are abstracted as
a function from offsets. -/
def rangeBytes (content : Int → Char) (r : httpRange) : Chars :=
  (List.range r.length.toNat).map (fun (k : Nat) => content (r.start + (k : Int)))

/-- The body bytes written by the multipart goroutine of fs.go
`serveContent`: for each range in order, its part header then exactly its
content bytes. -/
def multipartBodyAux (boundary ctype : Chars) (size : Int) (content : Int → Char) :
    Bool → List httpRange → Chars
  | _, [] => []
  | first, r :: rest =>
    createPartBytes first boundary ctype size r ++ rangeBytes content r ++
      multipartBodyAux boundary ctype size content false rest

/-- The complete multipart body: all parts then `mw.Close()`'s terminator. -/
def multipartBody (boundary ctype : Chars) (size : Int) (content : Int → Char)
    (ranges : List httpRange) : Chars :=
  multipartBodyAux boundary ctype size content true ranges ++ closeBytes boundary

/-- The loop of fs.go `rangesMIMESize`, split into the two counters the
code keeps: the bytes the `countingWriter` sees from each `CreatePart`
(first component) and the `encSize += ra.length` sum (second component). -/
def mimeSizeAux (boundary ctype : Chars) (contentSize : Int) :
    Bool → List httpRange → Int × Int
  | _, [] => (0, 0)
  | first, r :: rest =>
    (((createPartBytes first boundary ctype contentSize r).length : Int) +
        (mimeSizeAux boundary ctype contentSize false rest).1,
      r.length + (mimeSizeAux boundary ctype contentSize false rest).2)

/-- fs.go `rangesMIMESize`: dry-runs the part headers through a counting
writer, adds each range length, closes the writer, and adds its count. -/
def rangesMIMESize (ranges : List httpRange) (boundary ctype : Chars)
    (contentSize : Int) : Int :=
  (mimeSizeAux boundary ctype contentSize true ranges).2 +
    ((mimeSizeAux boundary ctype contentSize true ranges).1 +
      ((closeBytes boundary).length : Int))

/-- One filesystem entry as `filepath.WalkDir` presents it to the callbacks
in fs.go `TarDir`/`ZipDir` (walk order, I/O abstracted): `rel` is the path
relative to the walk root, `regular` is `info.Mode().IsRegular()`, `size`
is `info.Size()` at visit time, and `actual` is the byte count `io.Copy`
moves when the file's content is copied. -/
structure WalkEnt where
  rel : Chars
  regular : Bool
  size : Int
  actual : Int
deriving DecidableEq

/-- One entry written to the archive: its header name and declared size,
and the bytes actually copied after the header. -/
structure ArchiveEnt where
  name : Chars
  declaredSize : Int
  copied : Int
deriving DecidableEq

/-- The archive entry the walk callback produces for a regular file. -/
def entOf (e : WalkEnt) : ArchiveEnt := ⟨e.rel, e.size, e.actual⟩

/-- The walk of fs.go `TarDir`: non-regular entries are skipped; a regular
entry has its header and content written, and a size/copy mismatch returns
an error, which makes `filepath.WalkDir` stop.  Result: the entries
emitted, and whether the walk aborted with the mismatch error. -/
def tarWalk : List WalkEnt → List ArchiveEnt × Bool
  | [] => ([], false)
  | e :: rest =>
    if e.regular then
      if e.size ≠ e.actual then ([entOf e], true)
      else (entOf e :: (tarWalk rest).1, (tarWalk rest).2)
    else tarWalk rest

/-- The walk of fs.go `ZipDir`: same skip/verify/abort structure as `TarDir`. -/
def zipWalk : List WalkEnt → List ArchiveEnt × Bool
  | [] => ([], false)
  | e :: rest =>
    if e.regular then
      if e.size ≠ e.actual then ([entOf e], true)
      else (entOf e :: (zipWalk rest).1, (zipWalk rest).2)
    else zipWalk rest

/-- fs.go `isSlashRune`. -/
def isSlashRune (c : Char) : Bool := c = '/' || c = '\\'

/-- strings.Contains(v, ".."). -/
def hasDotDotSub : Chars → Bool
  | [] => false
  | c :: rest => (c = '.' && rest.head? = some '.') || hasDotDotSub rest

/-- strings.FieldsFunc(v, isSlashRune): the maximal runs of non-slash
characters, empty runs dropped. -/
def fieldsSlashAux (cur : Chars) : Chars → List Chars
  | [] => if cur = [] then [] else [cur.reverse]
  | c :: rest =>
    if isSlashRune c then
      if cur = [] then fieldsSlashAux [] rest
      else cur.reverse :: fieldsSlashAux [] rest
    else fieldsSlashAux (c :: cur) rest

/-- fs.go `containsDotDot`. -/
def containsDotDot (v : Chars) : Bool :=
  if ¬ hasDotDotSub v then false
  else (fieldsSlashAux [] v).any (fun ent => ent = ['.', '.'])

/-- Splitting a path at every `'/'` (keeping empty segments), for `pathClean`. -/
def splitSlashAux (cur : Chars) : Chars → List Chars
  | [] => [cur.reverse]
  | c :: rest =>
    if c = '/' then cur.reverse :: splitSlashAux [] rest
    else splitSlashAux (c :: cur) rest

def splitSlash (s : Chars) : List Chars := splitSlashAux [] s

/-- One step of lexical path cleaning: push a segment onto the stack of
kept segments (held in reverse), Go `path.Clean` semantics: drop empty and
`.` segments; `..` pops a kept segment, is dropped at the root, and is kept
when a relative path has nothing left to pop. -/
def cleanPush (rooted : Bool) (stack : List Chars) (seg : Chars) : List Chars :=
  if seg = [] || seg = ['.'] then stack
  else if seg = ['.', '.'] then
    match stack with
    | [] => if rooted then [] else [seg]
    | top :: rest => if top = ['.', '.'] then seg :: stack else rest
  else seg :: stack

/-- Joining segments with `'/'`. -/
def joinSlash : List Chars → Chars
  | [] => []
  | [s] => s
  | s :: rest => s ++ '/' :: joinSlash rest

/-- Go `path.Clean` (library code, modelled at its interface): the shortest
lexically equivalent path, `.` for an empty result, rooted results keep
their leading slash. -/
def pathClean (p : Chars) : Chars :=
  if p = [] then ['.']
  else
    let rooted := p.head? = some '/'
    let stack := (splitSlash p).foldl (cleanPush rooted) []
    let body := joinSlash stack.reverse
    if rooted then '/' :: body
    else if body = [] then ['.'] else body

def statusBadRequest : Nat := 400

/-- Where a request is routed.  `badRequest` is the 400 `"invalid URL
path"` answer; `serveCleaned name` is the call `serveFile(w, r, f.root,
path.Clean(upath), true)`; `serveNamed dir file` is `ServeFile`'s call
`serveFile(w, r, Dir(dir), file, false)`. -/
inductive Dispatch
  | badRequest
  | thumb
  | tarArchiveOf (p : Chars)
  | zipArchiveOf (p : Chars)
  | serveCleaned (name : Chars)
  | serveNamed (dir file : Chars)
deriving DecidableEq

/-- fs.go `fileHandler.ServeHTTP`: the routing decision of the dispatcher,
given the request URL path and the `thumb`/`archive` query values. -/
def addLeadingSlash (urlPath : Chars) : Chars :=
  if urlPath.head? = some '/' then urlPath else '/' :: urlPath

def fileHandlerServeHTTP (urlPath : Chars) (thumbQ : Bool) (archiveQ : Chars) :
    Dispatch :=
  if thumbQ then .thumb
  else if (addLeadingSlash urlPath).getLast? = some '/' && archiveQ = "tar".toList then
    .tarArchiveOf (pathClean (addLeadingSlash urlPath))
  else if (addLeadingSlash urlPath).getLast? = some '/' && archiveQ = "zip".toList then
    .zipArchiveOf (pathClean (addLeadingSlash urlPath))
  else .serveCleaned (pathClean (addLeadingSlash urlPath))

/-- filepath.Split (on a slash-separated name): directory prefix including
the final slash, and file name. -/
def filepathSplit (name : Chars) : Chars × Chars :=
  let fileLen := (name.reverse.takeWhile (fun c => c ≠ '/')).length
  (name.take (name.length - fileLen), name.drop (name.length - fileLen))

/-- fs.go `ServeFile` (the standalone entry point): rejects URL paths
containing a `..` segment with 400, otherwise serves the named file. -/
def ServeFileEntry (urlPath name : Chars) : Dispatch :=
  if containsDotDot urlPath then .badRequest
  else .serveNamed (filepathSplit name).1 (filepathSplit name).2





















/-- Whether an `If-Range` header that did not scan as an ETag fails to name
the resource's modification time: its parsed date (if it parses at all)
differs from the modification time at whole-second granularity. -/
def ifRangeDateMismatch (ht : HeaderTime) (mt : GoTime) : Bool :=
  match ht with
  | .parsed t => decide (t.unix ≠ mt.unix)
  | _ => true

/-- The amended failure table of the range engine: `errNoOverlap` on a
non-empty resource answers 416 with the `Content-Range: bytes */<size>`
hint, `errNoOverlap` on an empty resource is ignored (full 200), and a
malformed header answers 416 without the hint.  (Stated from the amended
claim, to be compared with the decision the code takes.) -/
def rangeFailureSpec (e : RangeErr) (size : Int) : RangeOutcome :=
  match e with
  | .noOverlap =>
    if size = 0 then .full
    else .respond statusRequestedRangeNotSatisfiable (some size)
  | .invalid => .respond statusRequestedRangeNotSatisfiable none

/-- `e.regular && e.size ≠ e.actual`: the walk entry that triggers the
size-verification error in `TarDir`/`ZipDir`. -/
def sizeMismatch (e : WalkEnt) : Bool :=
  e.regular && decide (e.size ≠ e.actual)

theorem checkPreconditions_proceed_val (r : Request) (etag : Chars) (mt : GoTime)
    (rh : Chars) (h : checkPreconditions r etag mt = .proceed rh) :
    rh = rangeForRequest r etag mt := by
  unfold checkPreconditions at h
  split at h
  · exact absurd h (by simp)
  · split at h
    · split at h <;> exact absurd h (by simp)
    · split at h
      · exact absurd h (by simp)
      · exact (PreconditionResult.proceed.inj h).symm
    · exact (PreconditionResult.proceed.inj h).symm

theorem rangeForRequest_eq_nil (r : Request) (etag : Chars) (mt : GoTime)
    (h : checkIfRange r.method r.ifRange r.ifRangeTime etag mt = .condFalse) :
    rangeForRequest r etag mt = [] := by
  unfold rangeForRequest
  by_cases hr : r.rangeHeader = [] <;> simp [hr, h]

theorem rangeDecision_nil (size : Int) : rangeDecision [] size = .full := by
  simp [rangeDecision, parseRange, rangesAfterSumCheck, sumRangesSize]

/-- C1: when the request carries an `If-Match` header (non-empty) that the
`checkIfMatch` scan answers `condFalse` for — the value is not `*` and
contains no ETag strong-matching the current ETag — `checkPreconditions`
responds 412 Precondition Failed and stops, for every HTTP method and
every `Range` header (and every other conditional header) in the request. -/
theorem ifMatch_failure_yields_412 (r : Request) (etag : Chars) (mt : GoTime)
    (h : checkIfMatch r.ifMatch etag = .condFalse) :
    checkPreconditions r etag mt = .done statusPreconditionFailed := by
  unfold checkPreconditions
  simp [imIusCheck, h]

theorem ifMatch_failure_yields_412_witness :
    checkIfMatch ("\"x\"".toList) ("\"y\"".toList) = .condFalse ∧
    checkPreconditions
      ⟨"POST", "\"x\"".toList, [], .absent, .absent, [], .absent,
        "bytes=0-1".toList⟩
      ("\"y\"".toList) ⟨100, 0⟩ = .done statusPreconditionFailed :=
  ⟨by decide, ifMatch_failure_yields_412 _ _ _ (by decide)⟩

/-- C5: whenever `parseRange` succeeds but the parsed ranges sum to
strictly more than the resource size, `serveContent` discards every range
and serves the full resource with a 200 response. -/
theorem oversized_range_sum_serves_full (s : Chars) (size : Int)
    (ranges : List httpRange) (hp : parseRange s size = .ok ranges)
    (hsum : size < sumRangesSize ranges) :
    rangeDecision s size = .full := by
  simp [rangeDecision, hp, rangesAfterSumCheck, hsum]

theorem oversized_range_sum_serves_full_witness :
    parseRange ("bytes=0-9,0-9".toList) 10 = .ok [⟨0, 10⟩, ⟨0, 10⟩] ∧
    (10 : Int) < sumRangesSize [⟨0, 10⟩, ⟨0, 10⟩] ∧
    rangeDecision ("bytes=0-9,0-9".toList) 10 = .full :=
  ⟨by decide, by decide,
    oversized_range_sum_serves_full _ 10 [⟨0, 10⟩, ⟨0, 10⟩] (by decide) (by decide)⟩

/-- C2 (counterexample): a syntactically malformed `Range` header is
answered with status 416 (the `default:` arm of the `switch` in
`serveContent` uses `StatusRequestedRangeNotSatisfiable`), not with the
plain 400 response the claim states. -/
theorem malformed_range_answers_416 :
    rangeDecision ("bytes=abc".toList) 10 =
      .respond statusRequestedRangeNotSatisfiable none ∧
    statusRequestedRangeNotSatisfiable ≠ statusBadRequest := by
  constructor
  · decide
  · decide

/-- C2 (amended): every `parseRange` failure is answered per
`rangeFailureSpec` — no-overlap on a non-empty resource gets 416 with the
`Content-Range: bytes */<size>` hint, no-overlap on an empty resource is
ignored and the full resource is served, and malformed syntax gets 416
without the hint (not 400). -/
theorem range_failure_handling (s : Chars) (size : Int) (e : RangeErr)
    (h : parseRange s size = .error e) :
    rangeDecision s size = rangeFailureSpec e size := by
  cases e <;> simp [rangeDecision, h, rangeFailureSpec]

theorem range_failure_handling_witness :
    (rangeDecision ("bytes=99-".toList) 10 = rangeFailureSpec .noOverlap 10 ∧
      rangeFailureSpec .noOverlap 10 =
        .respond statusRequestedRangeNotSatisfiable (some 10)) ∧
    (rangeDecision ("bytes=99-".toList) 0 = rangeFailureSpec .noOverlap 0 ∧
      rangeFailureSpec .noOverlap 0 = .full) ∧
    (rangeDecision ("bytes=abc".toList) 10 = rangeFailureSpec .invalid 10 ∧
      rangeFailureSpec .invalid 10 =
        .respond statusRequestedRangeNotSatisfiable none) :=
  ⟨⟨range_failure_handling _ 10 _ (by decide), by decide⟩,
   ⟨range_failure_handling _ 0 _ (by decide), by decide⟩,
   ⟨range_failure_handling _ 10 _ (by decide), by decide⟩⟩

/-- C3 (counterexample): a request whose unresolved URL path `/../x`
contains a `..` segment is not rejected by the dispatcher
`fileHandler.ServeHTTP`; it is resolved with `path.Clean` and served. -/
theorem dotdot_not_rejected_by_dispatcher :
    containsDotDot ("/../x".toList) = true ∧
    fileHandlerServeHTTP ("/../x".toList) false [] =
      .serveCleaned ("/x".toList) ∧
    fileHandlerServeHTTP ("/../x".toList) false [] ≠ .badRequest := by
  refine ⟨by decide, by decide, by decide⟩

/-- C3 (amended): only the standalone `ServeFile` entry point rejects URL
paths containing a `..` path segment with a 400 response; the dispatcher
`fileHandler.ServeHTTP` used by `FileServer` never answers 400 for the
path — it resolves the path with `path.Clean` and serves the result. -/
theorem dotdot_rejection_scope (urlPath name : Chars) (thumbQ : Bool)
    (archiveQ : Chars) (h : containsDotDot urlPath = true) :
    ServeFileEntry urlPath name = .badRequest ∧
    fileHandlerServeHTTP urlPath thumbQ archiveQ ≠ .badRequest := by
  constructor
  · simp [ServeFileEntry, h]
  · unfold fileHandlerServeHTTP
    split
    · exact fun hc => Dispatch.noConfusion hc
    · split
      · exact fun hc => Dispatch.noConfusion hc
      · split
        · exact fun hc => Dispatch.noConfusion hc
        · exact fun hc => Dispatch.noConfusion hc

theorem dotdot_rejection_scope_witness :
    containsDotDot ("/../x".toList) = true ∧
    (ServeFileEntry ("/../x".toList) ("x".toList) = .badRequest ∧
      fileHandlerServeHTTP ("/../x".toList) false [] ≠ .badRequest) :=
  ⟨by decide, dotdot_rejection_scope _ ("x".toList) false [] (by decide)⟩

/-- C9: on a GET/HEAD request carrying an `If-Range` header whose value
neither scans as an ETag strong-matching the current ETag nor (when it
does not scan as an ETag) names the resource's modification time at
whole-second granularity — including an unparseable value and a zero
modification time — `checkIfRange` returns `condFalse`, and whenever
`checkPreconditions` lets the request proceed it does so with the `Range`
header silently discarded, so the range engine serves a full 200 response;
no client error is reported. -/
theorem ifRange_mismatch_discards_range (r : Request) (etag : Chars)
    (mt : GoTime) (size : Int)
    (hm : r.method = "GET" ∨ r.method = "HEAD")
    (hir : r.ifRange ≠ [])
    (he : (scanETag r.ifRange).1 ≠ [] →
      etagStrongMatch (scanETag r.ifRange).1 etag = false)
    (hd : (scanETag r.ifRange).1 = [] → mt.isZero = false →
      ifRangeDateMismatch r.ifRangeTime mt = true) :
    checkIfRange r.method r.ifRange r.ifRangeTime etag mt = .condFalse ∧
    ∀ rh, checkPreconditions r etag mt = .proceed rh →
      rh = [] ∧ rangeDecision rh size = .full := by
  have hmethod : (decide (r.method ≠ "GET") && decide (r.method ≠ "HEAD")) = false := by
    rcases hm with h | h <;> simp [h]
  have hgh : ¬r.method = "GET" → r.method = "HEAD" := fun hg => hm.resolve_left hg
  have hcf : checkIfRange r.method r.ifRange r.ifRangeTime etag mt = .condFalse := by
    by_cases hsc : (scanETag r.ifRange).1 = []
    · by_cases hz : mt.isZero = true
      · simp [checkIfRange, hir, hsc, hz]
        exact hgh
      · have hz' : mt.isZero = false := by
          cases h : mt.isZero
          · rfl
          · exact absurd h hz
        cases hht : r.ifRangeTime with
        | absent =>
          simp [checkIfRange, hir, hsc, hz', hht]
          exact hgh
        | malformed =>
          simp [checkIfRange, hir, hsc, hz', hht]
          exact hgh
        | parsed t =>
          have hmm := hd hsc hz'
          rw [hht] at hmm
          simp only [ifRangeDateMismatch, decide_eq_true_eq] at hmm
          simp [checkIfRange, hir, hsc, hz', hht, hmm]
          exact hgh
    · have hsm := he hsc
      simp [checkIfRange, hir, hsc, hsm]
      exact hgh
  refine ⟨hcf, fun rh hp => ?_⟩
  have hval := checkPreconditions_proceed_val r etag mt rh hp
  have hnil := rangeForRequest_eq_nil r etag mt hcf
  rw [hnil] at hval
  exact ⟨hval, by rw [hval]; exact rangeDecision_nil size⟩

theorem ifRange_mismatch_discards_range_witness :
    checkIfRange "GET" ("\"a\"".toList) .absent ("\"b\"".toList) ⟨100, 0⟩ =
        .condFalse ∧
    ∀ rh, checkPreconditions
        ⟨"GET", [], [], .absent, .absent, "\"a\"".toList, .absent,
          "bytes=0-1".toList⟩
        ("\"b\"".toList) ⟨100, 0⟩ = .proceed rh →
      rh = [] ∧ rangeDecision rh 5 = .full :=
  ifRange_mismatch_discards_range
    ⟨"GET", [], [], .absent, .absent, "\"a\"".toList, .absent,
      "bytes=0-1".toList⟩
    ("\"b\"".toList) ⟨100, 0⟩ 5 (Or.inl rfl) (by decide)
    (fun _ => by decide) (fun hc => absurd hc (by decide))

/-- C10: a modification time equal to the Unix epoch is treated like the
zero time throughout: `isZeroTime` holds for it, `setLastModified` emits no
`Last-Modified` header, `checkIfModifiedSince` and `checkIfUnmodifiedSince`
return `condNone` for every header value and method, and a request whose
only preconditions are time-based (no `If-Match`/`If-None-Match`) always
proceeds — no 304 or 412 can arise. -/
theorem epoch_modtime_treated_as_zero (hdr : HeaderTime) (method : String)
    (r : Request) (etag : Chars) :
    isZeroTime unixEpochTime = true ∧
    setLastModified unixEpochTime = none ∧
    checkIfModifiedSince method hdr unixEpochTime = .condNone ∧
    checkIfUnmodifiedSince hdr unixEpochTime = .condNone ∧
    (r.ifMatch = [] → r.ifNoneMatch = [] →
      ∃ rh, checkPreconditions r etag unixEpochTime = .proceed rh) := by
  have hz : isZeroTime unixEpochTime = true := by decide
  have hims : ∀ (m : String) (h0 : HeaderTime),
      checkIfModifiedSince m h0 unixEpochTime = .condNone := by
    intro m h0
    unfold checkIfModifiedSince
    rw [hz]
    split
    · rfl
    · simp
  have hius : ∀ h0 : HeaderTime,
      checkIfUnmodifiedSince h0 unixEpochTime = .condNone := by
    intro h0
    unfold checkIfUnmodifiedSince
    rw [hz]
    simp
  refine ⟨hz, by decide, hims method hdr, hius hdr, fun h1 h2 => ?_⟩
  refine ⟨rangeForRequest r etag unixEpochTime, ?_⟩
  unfold checkPreconditions
  simp [imIusCheck, h1, h2, checkIfMatch, checkIfNoneMatch,
    hius r.ifUnmodifiedSince, hims r.method r.ifModifiedSince]

theorem epoch_modtime_treated_as_zero_witness :
    isZeroTime unixEpochTime = true ∧
    setLastModified unixEpochTime = none ∧
    checkIfModifiedSince "GET" (.parsed ⟨50, 0⟩) unixEpochTime = .condNone ∧
    checkIfUnmodifiedSince (.parsed ⟨50, 0⟩) unixEpochTime = .condNone ∧
    ((["x"].head? = some "x" → [] = ([] : Chars) →
      ∃ rh, checkPreconditions
        ⟨"GET", [], [], .parsed ⟨50, 0⟩, .parsed ⟨50, 0⟩, [], .absent, []⟩
        [] unixEpochTime = .proceed rh)) := by
  have h := epoch_modtime_treated_as_zero (.parsed ⟨50, 0⟩) "GET"
    ⟨"GET", [], [], .parsed ⟨50, 0⟩, .parsed ⟨50, 0⟩, [], .absent, []⟩ []
  exact ⟨h.1, h.2.1, h.2.2.1, h.2.2.2.1, fun _ _ => h.2.2.2.2 rfl rfl⟩

theorem tarWalk_cons_skip (e : WalkEnt) (rest : List WalkEnt)
    (h : e.regular = false) : tarWalk (e :: rest) = tarWalk rest := by
  simp [tarWalk, h]

theorem tarWalk_cons_mismatch (e : WalkEnt) (rest : List WalkEnt)
    (h : e.regular = true) (hm : e.size ≠ e.actual) :
    tarWalk (e :: rest) = ([entOf e], true) := by
  simp [tarWalk, h, hm]

theorem tarWalk_cons_ok (e : WalkEnt) (rest : List WalkEnt)
    (h : e.regular = true) (hm : e.size = e.actual) :
    tarWalk (e :: rest) = (entOf e :: (tarWalk rest).1, (tarWalk rest).2) := by
  simp [tarWalk, h, hm]

theorem zipWalk_eq_tarWalk (es : List WalkEnt) : zipWalk es = tarWalk es := by
  induction es with
  | nil => rfl
  | cons e rest ih => simp [zipWalk, tarWalk, ih]

theorem tarWalk_emits_regular (es : List WalkEnt) :
    ∀ a ∈ (tarWalk es).1, ∃ w, w ∈ es ∧ w.regular = true ∧ a = entOf w := by
  induction es with
  | nil => intro a ha; simp [tarWalk] at ha
  | cons e rest ih =>
    intro a ha
    by_cases hr : e.regular = true
    · by_cases hms : e.size = e.actual
      · rw [tarWalk_cons_ok e rest hr hms] at ha
        rcases List.mem_cons.mp ha with h | h
        · exact ⟨e, by simp, hr, h⟩
        · obtain ⟨w, hw, hwr, hwe⟩ := ih a h
          exact ⟨w, by simp [hw], hwr, hwe⟩
      · rw [tarWalk_cons_mismatch e rest hr hms] at ha
        rcases List.mem_cons.mp ha with h | h
        · exact ⟨e, by simp, hr, h⟩
        · simp at h
    · rw [tarWalk_cons_skip e rest (by simpa using hr)] at ha
      obtain ⟨w, hw, hwr, hwe⟩ := ih a ha
      exact ⟨w, by simp [hw], hwr, hwe⟩

theorem tarWalk_abort_iff (es : List WalkEnt) :
    (tarWalk es).2 = es.any sizeMismatch := by
  induction es with
  | nil => rfl
  | cons e rest ih =>
    by_cases hr : e.regular = true
    · by_cases hms : e.size = e.actual
      · rw [tarWalk_cons_ok e rest hr hms, List.any_cons]
        simp [sizeMismatch, hr, hms, ih]
      · rw [tarWalk_cons_mismatch e rest hr hms, List.any_cons]
        simp [sizeMismatch, hr, hms]
    · rw [tarWalk_cons_skip e rest (by simpa using hr), List.any_cons]
      simp [sizeMismatch, hr, ih]

theorem tarWalk_stops_at_mismatch (pre : List WalkEnt) :
    ∀ (e : WalkEnt) (post : List WalkEnt), e.regular = true →
      e.size ≠ e.actual → (∀ p ∈ pre, sizeMismatch p = false) →
      tarWalk (pre ++ e :: post) =
        ((pre.filter (fun p => p.regular)).map entOf ++ [entOf e], true) := by
  induction pre with
  | nil =>
    intro e post hr hm _
    simpa using tarWalk_cons_mismatch e post hr hm
  | cons p rest ih =>
    intro e post hr hm hpre
    have hp : sizeMismatch p = false := hpre p (by simp)
    have htl : ∀ q ∈ rest, sizeMismatch q = false := fun q hq => hpre q (by simp [hq])
    by_cases hpr : p.regular = true
    · have hps : p.size = p.actual := by
        by_contra hc
        simp [sizeMismatch, hpr, hc] at hp
      rw [List.cons_append, tarWalk_cons_ok p _ hpr hps, ih e post hr hm htl]
      simp [hpr]
    · rw [List.cons_append, tarWalk_cons_skip p _ (by simpa using hpr),
        ih e post hr hm htl]
      simp [hpr]

/-- C8: during archive export, tar and zip walks behave identically; every
emitted entry comes from a regular file visited by the walk (symlinks,
devices and directories are skipped); the walk aborts with an error exactly
when some visited regular file's copied byte count differs from the size
recorded at its visit; and at the first such mismatch the walk stops — the
output is the regular entries before it plus the mismatching entry, and
nothing after it is emitted. -/
theorem archive_export_integrity (es : List WalkEnt) :
    zipWalk es = tarWalk es ∧
    (∀ a ∈ (tarWalk es).1, ∃ w, w ∈ es ∧ w.regular = true ∧ a = entOf w) ∧
    ((tarWalk es).2 = es.any sizeMismatch) ∧
    (∀ pre e post, es = pre ++ e :: post → e.regular = true →
      e.size ≠ e.actual → (∀ p ∈ pre, sizeMismatch p = false) →
      tarWalk es = ((pre.filter (fun p => p.regular)).map entOf ++ [entOf e], true)) :=
  ⟨zipWalk_eq_tarWalk es, tarWalk_emits_regular es, tarWalk_abort_iff es,
    fun pre e post hsplit hr hm hpre =>
      hsplit ▸ tarWalk_stops_at_mismatch pre e post hr hm hpre⟩

theorem archive_export_integrity_witness :
    (zipWalk [⟨"a.txt".toList, true, 100, 100⟩, ⟨"ln".toList, false, 0, 0⟩] =
        tarWalk [⟨"a.txt".toList, true, 100, 100⟩, ⟨"ln".toList, false, 0, 0⟩] ∧
      (∀ a ∈ (tarWalk [⟨"a.txt".toList, true, 100, 100⟩,
          ⟨"ln".toList, false, 0, 0⟩]).1,
        ∃ w, w ∈ [⟨"a.txt".toList, true, 100, 100⟩, ⟨"ln".toList, false, 0, 0⟩] ∧
          w.regular = true ∧ a = entOf w) ∧
      ((tarWalk [⟨"a.txt".toList, true, 100, 100⟩, ⟨"ln".toList, false, 0, 0⟩]).2 =
        [⟨"a.txt".toList, true, 100, 100⟩, ⟨"ln".toList, false, 0, 0⟩].any
          sizeMismatch) ∧
      (∀ pre e post,
        [⟨"a.txt".toList, true, 100, 100⟩, ⟨"ln".toList, false, 0, 0⟩] =
          pre ++ e :: post →
        e.regular = true → e.size ≠ e.actual →
        (∀ p ∈ pre, sizeMismatch p = false) →
        tarWalk [⟨"a.txt".toList, true, 100, 100⟩, ⟨"ln".toList, false, 0, 0⟩] =
          ((pre.filter (fun p => p.regular)).map entOf ++ [entOf e], true))) ∧
    tarWalk [⟨"a.txt".toList, true, 100, 100⟩, ⟨"ln".toList, false, 0, 0⟩] =
      ([⟨"a.txt".toList, 100, 100⟩], false) ∧
    tarWalk [⟨"a.txt".toList, true, 100, 50⟩, ⟨"b.txt".toList, true, 7, 7⟩] =
      ([⟨"a.txt".toList, 100, 50⟩], true) :=
  ⟨archive_export_integrity _, by decide, by decide⟩

theorem parseRangeSpecs_ok_invariant (size : Int) (hsize : 0 ≤ size)
    (specs : List Chars) :
    ∀ (noOv : Bool) (acc ranges : List httpRange),
      (∀ r ∈ acc, 0 ≤ r.start ∧ 0 ≤ r.length ∧ r.start + r.length ≤ size) →
      parseRangeSpecs size specs noOv acc = .ok ranges →
      ∀ r ∈ ranges, 0 ≤ r.start ∧ 0 ≤ r.length ∧ r.start + r.length ≤ size := by
  induction specs with
  | nil =>
    intro noOv acc ranges hacc h
    unfold parseRangeSpecs at h
    split at h
    · simp at h
    · intro r hr
      have hrev := Except.ok.inj h
      subst hrev
      exact hacc r (by simpa using hr)
  | cons ra rest ih =>
    intro noOv acc ranges hacc h
    unfold parseRangeSpecs at h
    split at h
    · exact ih noOv acc ranges hacc h
    · split at h
      · simp at h
      · split at h
        · -- suffix-length spec
          split at h
          · simp at h
          · split at h
            · simp at h
            · rename_i i hparse
              split at h
              · simp at h
              · rename_i hneg
                refine ih _ _ _ ?_ h
                intro r hr
                rcases List.mem_cons.mp hr with rfl | hr'
                · dsimp only
                  split <;> refine ⟨by omega, by omega, by omega⟩
                · exact hacc r hr'
        · -- start-end spec
          split at h
          · simp at h
          · rename_i i hparse
            split at h
            · simp at h
            · rename_i hneg
              split at h
              · exact ih _ _ _ hacc h
              · rename_i hover
                split at h
                · refine ih _ _ _ ?_ h
                  intro r hr
                  rcases List.mem_cons.mp hr with rfl | hr'
                  · dsimp only
                    exact ⟨by omega, by omega, by omega⟩
                  · exact hacc r hr'
                · split at h
                  · simp at h
                  · rename_i j hparse2
                    split at h
                    · simp at h
                    · rename_i hji
                      refine ih _ _ _ ?_ h
                      intro r hr
                      rcases List.mem_cons.mp hr with rfl | hr'
                      · dsimp only
                        split <;> refine ⟨by omega, by omega, by omega⟩
                      · exact hacc r hr'

theorem parseRange_ok_invariant (s : Chars) (size : Int) (ranges : List httpRange)
    (hsize : 0 ≤ size) (h : parseRange s size = .ok ranges) :
    ∀ r ∈ ranges, 0 ≤ r.start ∧ 0 ≤ r.length ∧ r.start + r.length ≤ size := by
  unfold parseRange at h
  split at h
  · have hnil := Except.ok.inj h
    subst hnil
    intro r hr
    simp at hr
  · split at h
    · simp at h
    · exact parseRangeSpecs_ok_invariant size hsize _ false [] ranges (by simp) h

/-- C6 (counterexample): `Range: bytes=-0` against a 10-byte resource is
accepted and yields the range `{start := 10, length := 0}`, whose length is
not positive, contradicting the claimed invariant. -/
theorem parseRange_suffix_zero_length :
    parseRange ("bytes=-0".toList) 10 = .ok [⟨10, 0⟩] ∧
    ¬ (0 : Int) < (httpRange.mk 10 0).length := by
  constructor
  · decide
  · decide

/-- C6 (amended): every range returned by `parseRange` against a resource
of size `S ≥ 0` has a non-negative start, a NON-NEGATIVE (not necessarily
positive: a `-0` suffix spec yields length 0) length, and satisfies
`start + length ≤ S`. -/
theorem parseRange_range_invariant (s : Chars) (size : Int)
    (ranges : List httpRange) (hsize : 0 ≤ size)
    (h : parseRange s size = .ok ranges) :
    ∀ r ∈ ranges, 0 ≤ r.start ∧ 0 ≤ r.length ∧ r.start + r.length ≤ size :=
  parseRange_ok_invariant s size ranges hsize h

theorem parseRange_range_invariant_witness :
    (0 : Int) ≤ 10 ∧
    parseRange ("bytes=2-5,-3".toList) 10 = .ok [⟨2, 4⟩, ⟨7, 3⟩] ∧
    ∀ r ∈ [httpRange.mk 2 4, httpRange.mk 7 3],
      0 ≤ r.start ∧ 0 ≤ r.length ∧ r.start + r.length ≤ 10 :=
  ⟨by decide, by decide,
    parseRange_range_invariant ("bytes=2-5,-3".toList) 10 _ (by decide) (by decide)⟩

theorem createPartBytes_length_congr (first : Bool) (b1 b2 ctype : Chars)
    (size : Int) (r : httpRange) (hb : b1.length = b2.length) :
    (createPartBytes first b2 ctype size r).length =
      (createPartBytes first b1 ctype size r).length := by
  unfold createPartBytes
  cases first <;> simp [List.length_append, hb]

theorem closeBytes_length_congr (b1 b2 : Chars) (hb : b1.length = b2.length) :
    (closeBytes b2).length = (closeBytes b1).length := by
  simp [closeBytes, List.length_append, hb]

theorem rangeBytes_length (content : Int → Char) (r : httpRange)
    (h : 0 ≤ r.length) : ((rangeBytes content r).length : Int) = r.length := by
  have hl : (rangeBytes content r).length = r.length.toNat := by
    simp [rangeBytes]
  rw [hl, Int.toNat_of_nonneg h]

theorem multipartBodyAux_length (b1 b2 ctype : Chars) (size : Int)
    (content : Int → Char) (hb : b1.length = b2.length) (rs : List httpRange) :
    ∀ first : Bool, (∀ r ∈ rs, 0 ≤ r.length) →
      ((multipartBodyAux b2 ctype size content first rs).length : Int) =
        (mimeSizeAux b1 ctype size first rs).1 +
          (mimeSizeAux b1 ctype size first rs).2 := by
  induction rs with
  | nil => intro first _; simp [multipartBodyAux, mimeSizeAux]
  | cons r rest ih =>
    intro first h
    have h0 : 0 ≤ r.length := h r (by simp)
    have ihr := ih false (fun q hq => h q (by simp [hq]))
    simp only [multipartBodyAux, mimeSizeAux, List.length_append]
    push_cast
    rw [rangeBytes_length content r h0,
      createPartBytes_length_congr first b1 b2 ctype size r hb]
    omega

/-- C4: for a multi-range 206 response, the `Content-Length` computed in
advance by `rangesMIMESize` (dry-running the multipart framing through its
own writer, whose generated boundary `b1` differs from the boundary `b2`
of the writer that streams the body but always has the same length) equals
exactly the number of body bytes the multipart writer produces: the sum,
over the parsed ranges in request order, of each part's framing overhead
plus exactly that range's length, plus the final multipart terminator. -/
theorem multipart_content_length_exact (b1 b2 ctype : Chars) (size : Int)
    (content : Int → Char) (rangeReq : Chars) (ranges : List httpRange)
    (hb : b1.length = b2.length)
    (hsize : 0 ≤ size) (hp : parseRange rangeReq size = .ok ranges)
    (_hmulti : 1 < ranges.length) :
    ((multipartBody b2 ctype size content ranges).length : Int) =
      rangesMIMESize ranges b1 ctype size := by
  have hlen : ∀ r ∈ ranges, 0 ≤ r.length := fun r hr =>
    (parseRange_ok_invariant rangeReq size ranges hsize hp r hr).2.1
  unfold multipartBody rangesMIMESize
  rw [List.length_append]
  push_cast
  rw [multipartBodyAux_length b1 b2 ctype size content hb ranges true hlen,
    closeBytes_length_congr b1 b2 hb]
  ring

theorem multipart_content_length_exact_witness :
    ("A".toList : Chars).length = ("B".toList : Chars).length ∧
    (0 : Int) ≤ 10 ∧
    parseRange ("bytes=0-0,2-3".toList) 10 = .ok [⟨0, 1⟩, ⟨2, 2⟩] ∧
    1 < [httpRange.mk 0 1, httpRange.mk 2 2].length ∧
    ((multipartBody ("B".toList) ("text/plain".toList) 10 (fun _ => 'x')
        [⟨0, 1⟩, ⟨2, 2⟩]).length : Int) =
      rangesMIMESize [⟨0, 1⟩, ⟨2, 2⟩] ("A".toList) ("text/plain".toList) 10 :=
  ⟨by decide, by decide, by decide, by decide,
    multipart_content_length_exact ("A".toList) ("B".toList)
      ("text/plain".toList) 10 (fun _ => 'x') ("bytes=0-0,2-3".toList)
      [⟨0, 1⟩, ⟨2, 2⟩] (by decide) (by decide) (by decide) (by decide)⟩

theorem dropWhile_eq_self_of_all (p : Char → Bool) (l : Chars)
    (h : ∀ c ∈ l, p c = false) : l.dropWhile p = l := by
  cases l with
  | nil => rfl
  | cons a l => simp [List.dropWhile_cons, h a (by simp)]

theorem trimString_id (l : Chars) (h : ∀ c ∈ l, isASCIISpace c = false) :
    trimString l = l := by
  unfold trimString
  rw [dropWhile_eq_self_of_all _ _ h,
    dropWhile_eq_self_of_all _ _ (fun c hc => h c (List.mem_reverse.mp hc)),
    List.reverse_reverse]

theorem splitCommaAux_no_comma (l : Chars) :
    ∀ cur : Chars, (∀ c ∈ l, c ≠ ',') →
      splitCommaAux cur l = [cur.reverse ++ l] := by
  induction l with
  | nil => intro cur _; simp [splitCommaAux]
  | cons a l ih =>
    intro cur h
    have ha : a ≠ ',' := h a (by simp)
    rw [splitCommaAux, if_neg ha, ih (a :: cur) (fun c hc => h c (by simp [hc]))]
    simp

theorem splitComma_no_comma (l : Chars) (h : ∀ c ∈ l, c ≠ ',') :
    splitComma l = [l] := by
  have hs := splitCommaAux_no_comma l [] h
  simpa [splitComma] using hs

theorem cutDash_append (ds es : Chars) (h : ∀ c ∈ ds, c ≠ '-') :
    cutDash (ds ++ '-' :: es) = some (ds, es) := by
  induction ds with
  | nil => simp [cutDash]
  | cons a l ih =>
    have ha : a ≠ '-' := h a (by simp)
    rw [List.cons_append, cutDash, if_neg ha,
      ih (fun c hc => h c (by simp [hc]))]

theorem allDigits_mem (ds : Chars) (h : allDigits ds = true) :
    ∀ c ∈ ds, '0' ≤ c ∧ c ≤ '9' := by
  unfold allDigits at h
  simp only [Bool.and_eq_true, List.all_eq_true, decide_eq_true_eq] at h
  exact h.2

theorem allDigits_ne_nil (ds : Chars) (h : allDigits ds = true) : ds ≠ [] := by
  unfold allDigits at h
  simp only [Bool.and_eq_true, List.all_eq_true, decide_eq_true_eq] at h
  exact h.1

theorem digit_facts (c : Char) (h : '0' ≤ c ∧ c ≤ '9') :
    c ≠ ',' ∧ c ≠ '-' ∧ c ≠ '+' ∧ isASCIISpace c = false := by
  obtain ⟨h0, _⟩ := h
  refine ⟨?_, ?_, ?_, ?_⟩
  · rintro rfl; exact absurd h0 (by decide)
  · rintro rfl; exact absurd h0 (by decide)
  · rintro rfl; exact absurd h0 (by decide)
  · cases hsp : isASCIISpace c
    · rfl
    · exfalso
      simp only [isASCIISpace, Bool.or_eq_true, decide_eq_true_eq] at hsp
      rcases hsp with ((rfl | rfl) | rfl) | rfl <;> exact absurd h0 (by decide)

theorem goParseInt_digits (ds : Chars) (h : allDigits ds = true)
    (hb : (digitsVal ds : Int) ≤ int64Max) :
    goParseInt ds = some ((digitsVal ds : Int)) := by
  have hd := allDigits_mem ds h
  have hne := allDigits_ne_nil ds h
  obtain ⟨c, cs, rfl⟩ := List.exists_cons_of_ne_nil hne
  have hc := hd c (by simp)
  have hcp : c ≠ '+' := (digit_facts c hc).2.2.1
  have hcm : c ≠ '-' := (digit_facts c hc).2.1
  have hmin : int64Min ≤ (digitsVal (c :: cs) : Int) :=
    le_trans (by decide) (Int.natCast_nonneg _)
  rw [goParseInt, if_neg (by simp [hcp]), if_neg (by simp [hcm]),
    goParseIntDigits, if_pos h]
  simp [hmin, hb]

theorem bytes_isPrefixOf (l : Chars) :
    ("bytes=".toList).isPrefixOf ("bytes=".toList ++ l) = true := by
  rw [List.isPrefixOf_iff_prefix]
  exact List.prefix_append _ l

/-- C7: for every well-formed spec `bytes=a-b` (digit strings `ds`, `es`
denoting `a` and `b`, with `0 ≤ a ≤ b`, `a < size`, and `b` representable
in int64), `parseRange` returns the single range with `start = a` and
`length = min b (size-1) - a + 1` — that is, `length = b - a + 1` when
`b < size`, and the end clamped to `size - 1` (covering `a` through
`size-1`) when `b ≥ size`. -/
theorem parseRange_start_end_spec (ds es : Chars) (size : Int)
    (hds : allDigits ds = true) (hes : allDigits es = true)
    (hab : (digitsVal ds : Int) ≤ (digitsVal es : Int))
    (ha : (digitsVal ds : Int) < size)
    (hb : (digitsVal es : Int) ≤ int64Max) :
    parseRange ("bytes=".toList ++ (ds ++ '-' :: es)) size =
      .ok [⟨(digitsVal ds : Int),
        min (digitsVal es : Int) (size - 1) - (digitsVal ds : Int) + 1⟩] := by
  have hdm := allDigits_mem ds hds
  have hem := allDigits_mem es hes
  have hdne := allDigits_ne_nil ds hds
  have hene := allDigits_ne_nil es hes
  have hds_nospace : ∀ c ∈ ds, isASCIISpace c = false := fun c hc =>
    (digit_facts c (hdm c hc)).2.2.2
  have hes_nospace : ∀ c ∈ es, isASCIISpace c = false := fun c hc =>
    (digit_facts c (hem c hc)).2.2.2
  have hds_nodash : ∀ c ∈ ds, c ≠ '-' := fun c hc => (digit_facts c (hdm c hc)).2.1
  have hspec_nospace : ∀ c ∈ ds ++ '-' :: es, isASCIISpace c = false := by
    intro c hc
    rcases List.mem_append.mp hc with hc | hc
    · exact hds_nospace c hc
    · rcases List.mem_cons.mp hc with rfl | hc
      · decide
      · exact hes_nospace c hc
  have hspec_nocomma : ∀ c ∈ ds ++ '-' :: es, c ≠ ',' := by
    intro c hc
    rcases List.mem_append.mp hc with hc | hc
    · exact (digit_facts c (hdm c hc)).1
    · rcases List.mem_cons.mp hc with rfl | hc
      · decide
      · exact (digit_facts c (hem c hc)).1
  have hA0 : (0 : Int) ≤ (digitsVal ds : Int) := Int.natCast_nonneg _
  have hmin : (if size ≤ (digitsVal es : Int) then size - 1
      else (digitsVal es : Int)) = min (digitsVal es : Int) (size - 1) := by
    split <;> omega
  rw [parseRange, if_neg (by simp), if_neg (by simp [bytes_isPrefixOf]),
    show ("bytes=".toList ++ (ds ++ '-' :: es)).drop 6 = ds ++ '-' :: es from rfl,
    splitComma_no_comma _ hspec_nocomma, parseRangeSpecs,
    trimString_id _ hspec_nospace, if_neg (by simp), cutDash_append ds es hds_nodash]
  dsimp only
  rw [trimString_id ds hds_nospace, trimString_id es hes_nospace,
    if_neg hdne, goParseInt_digits ds hds (le_trans hab hb)]
  dsimp only
  rw [if_neg (not_lt.mpr hA0), if_neg (not_le.mpr ha), if_neg hene,
    goParseInt_digits es hes hb]
  dsimp only
  rw [if_neg (not_lt.mpr hab), hmin, parseRangeSpecs]
  rfl

theorem parseRange_start_end_spec_witness :
    allDigits ("2".toList) = true ∧ allDigits ("15".toList) = true ∧
    (digitsVal ("2".toList) : Int) ≤ (digitsVal ("15".toList) : Int) ∧
    (digitsVal ("2".toList) : Int) < 10 ∧
    (digitsVal ("15".toList) : Int) ≤ int64Max ∧
    parseRange ("bytes=".toList ++ ("2".toList ++ '-' :: "15".toList)) 10 =
      .ok [⟨(digitsVal ("2".toList) : Int),
        min (digitsVal ("15".toList) : Int) (10 - 1) -
          (digitsVal ("2".toList) : Int) + 1⟩] :=
  ⟨by decide, by decide, by decide, by decide, by decide,
    parseRange_start_end_spec ("2".toList) ("15".toList) 10
      (by decide) (by decide) (by decide) (by decide) (by decide)⟩

end Browsile
